import Mathlib

/-!
Verification of the mlx3 ConnectX-3 driver control plane (Theseus).

This file shallowly embeds the parts of the driver needed to settle the
frozen claims: the command mailbox protocol (`src/kernel/mlx3/src/cmd.rs`),
the ICM profile planner (`profile.rs`), the ICM chunking and MTT allocator
(`icm.rs`), completion-queue creation and destruction
(`completion_queue.rs`, `lib.rs`), the queue-pair state machine and
send-queue stamping (`queue_pair.rs`), and the hardware-number counters
(`lib.rs`).  Machine integers are modelled as `Nat` with explicit masking
where the source relies on a fixed width.
-/

/-! ## Command mailbox (cmd.rs) -/

/-- `HCR_GO_BIT` from cmd.rs. -/
def HCR_GO_BIT : Nat := 23

/-- `HCR_T_BIT` from cmd.rs. -/
def HCR_T_BIT : Nat := 21

/-- `POLL_TOKEN` from cmd.rs. -/
def POLL_TOKEN : Nat := 0xffff

/-- The HCR register block (struct `Hcr` in cmd.rs): input parameter,
input modifier, output parameter, token and the combined status/opcode
word, each modelled as the natural number currently held by the
register. -/
structure Hcr where
  in_param : Nat
  in_mod : Nat
  out_param : Nat
  token : Nat
  status_opcode : Nat
deriving Repr, DecidableEq

/-- The software-visible state of `CommandMailBox`: the register block it
points at plus its `exp_toggle` field. -/
structure CmdState where
  hcr : Hcr
  exp_toggle : Nat
deriving Repr, DecidableEq

/-- State right after `CommandMailBox::new`: `exp_toggle = 1`; the HCR
block is still in its post-reset state (all registers read as zero). -/
def initCmdState : CmdState :=
  { hcr := ⟨0, 0, 0, 0, 0⟩, exp_toggle := 1 }

/-- `CommandMailBox::is_pending`, verbatim:
`status & (1 << HCR_GO_BIT) != 0 || (status & (1 << HCR_T_BIT)) == self.exp_toggle`.
Note that the second disjunct compares the *masked* toggle bit (0 or
2^21) with the 0/1 counter `exp_toggle`, exactly as the source does. -/
def is_pending (s : CmdState) : Bool :=
  decide (s.hcr.status_opcode &&& (1 <<< HCR_GO_BIT) ≠ 0) ||
  decide ((s.hcr.status_opcode &&& (1 <<< HCR_T_BIT)) = s.exp_toggle)

/-- The `Opcode` enum from cmd.rs with its `#[repr(u32)]` values. -/
inductive Opcode where
  | QueryDevCap | QueryFw | QueryAdapter | InitHca | CloseHca | InitPort
  | ClosePort | QueryHca | QueryPort | SetPort | RunFw | UnmapIcm | MapIcm
  | UnmapIcmAux | MapIcmAux | UnmapFa | SetIcmSize | MapFa
  | Sw2HwMpt | QueryMpt | Hw2SwMpt | ReadMtt | WriteMtt
  | MapEq | Sw2HwEq | Hw2SwEq | QueryEq | GenEqe
deriving Repr, DecidableEq

/-- `u32::from(opcode)`: the discriminant of each `Opcode` variant. -/
def Opcode.val : Opcode → Nat
  | .QueryDevCap => 0x03
  | .QueryFw => 0x04
  | .QueryAdapter => 0x06
  | .InitHca => 0x07
  | .CloseHca => 0x08
  | .InitPort => 0x09
  | .ClosePort => 0x0a
  | .QueryHca => 0x0b
  | .QueryPort => 0x43
  | .SetPort => 0x0c
  | .RunFw => 0xff6
  | .UnmapIcm => 0xff9
  | .MapIcm => 0xffa
  | .UnmapIcmAux => 0xffb
  | .MapIcmAux => 0xffc
  | .UnmapFa => 0xffe
  | .SetIcmSize => 0xffd
  | .MapFa => 0xfff
  | .Sw2HwMpt => 0x0d
  | .QueryMpt => 0x0e
  | .Hw2SwMpt => 0x0f
  | .ReadMtt => 0x10
  | .WriteMtt => 0x11
  | .MapEq => 0x12
  | .Sw2HwEq => 0x13
  | .Hw2SwEq => 0x14
  | .QueryEq => 0x15
  | .GenEqe => 0x58

/-- Every opcode fits in the low 12 bits of the control word
(`low 12 bits = opcode` in the register layout). -/
theorem Opcode.val_lt (op : Opcode) : op.val < 2 ^ 12 := by
  cases op <;> decide

/-- `ReturnStatus` from cmd.rs. -/
inductive ReturnStatus where
  | Ok | InternalErr | BadOp | BadParam | BadSysState | BadResource
  | ResourceBusy | ExceedLim | BadResState | BadIndex | BadNvmem
  | IcmError | BadPerm | BadQpState | RegBound | BadPkt | BadSize
deriving Repr, DecidableEq

/-- `ReturnStatus::from_repr` (derived by `FromRepr`): the partial inverse
of the `#[repr(u32)]` discriminants. -/
def ReturnStatus.from_repr (n : Nat) : Option ReturnStatus :=
  match n with
  | 0x00 => some .Ok
  | 0x01 => some .InternalErr
  | 0x02 => some .BadOp
  | 0x03 => some .BadParam
  | 0x04 => some .BadSysState
  | 0x05 => some .BadResource
  | 0x06 => some .ResourceBusy
  | 0x08 => some .ExceedLim
  | 0x09 => some .BadResState
  | 0x0a => some .BadIndex
  | 0x0b => some .BadNvmem
  | 0x0c => some .IcmError
  | 0x0d => some .BadPerm
  | 0x10 => some .BadQpState
  | 0x21 => some .RegBound
  | 0x30 => some .BadPkt
  | 0x40 => some .BadSize
  | _ => none

/-- Outcome of one `execute_command` call: the busy-wait can spin forever
(`hang`), the `.expect("return status invalid")` can panic (`panic`), or
the call returns (`done`) with the new software state and the
`Result<u64, ReturnStatus>` value. -/
inductive ExecOutcome where
  | hang
  | panic
  | done (s : CmdState) (r : Except ReturnStatus Nat)
deriving Repr

/-- One firmware response: what the hardware puts into the HCR when it
completes a command.  It clears the go bit, overwrites the top status
byte with `statusByte` and (for immediate outputs) writes `outVal` into
`out_param`; all other bits of the status word — the toggle bit
included — keep the value software wrote. -/
structure HwResponse where
  statusByte : Nat
  outVal : Nat
deriving Repr, DecidableEq

/-- The control word written in step 3 of the protocol: go = 1, the
expected toggle bit, event bit 0, opcode modifier 0, and the opcode. -/
def ctrlWord (expToggle : Nat) (opcode : Opcode) : Nat :=
  (1 <<< HCR_GO_BIT) ||| (expToggle <<< HCR_T_BIT) |||
    (0 <<< 22) ||| (0 <<< 12) ||| opcode.val

/-- The state right after the command has been posted: all five registers
written, `exp_toggle` flipped for the next call. -/
def postedState (s : CmdState) (opcode : Opcode)
    (input input_modifier output : Nat) : CmdState :=
  { hcr := { in_param := input, in_mod := input_modifier,
             out_param := output, token := POLL_TOKEN <<< 16,
             status_opcode := ctrlWord s.exp_toggle opcode },
    exp_toggle := s.exp_toggle ^^^ 1 }

/-- The state once the hardware has completed the posted command: the go
bit is cleared, the status byte written, `out_param` updated; the toggle
bit (and the rest of the low 23 bits) keeps what software wrote. -/
def completedState (s : CmdState) (opcode : Opcode)
    (input input_modifier output : Nat) (resp : HwResponse) : CmdState :=
  let posted := postedState s opcode input input_modifier output
  { posted with hcr := { posted.hcr with
      status_opcode := (resp.statusByte <<< 24) |||
        (ctrlWord s.exp_toggle opcode % 2 ^ HCR_GO_BIT),
      out_param := resp.outVal } }

/-- `CommandMailBox::execute_command` over the serial protocol.  Between
two calls no command is in flight, so the register contents observed by
the first busy-wait are exactly the current state: the wait either exits
at once or spins forever (`hang`).  The call then writes the four input
registers and the control word, flips `exp_toggle`, waits for the
completion described by `resp`, and decodes the status byte. -/
def execute_command (s : CmdState) (opcode : Opcode)
    (input input_modifier output : Nat) (resp : HwResponse) : ExecOutcome :=
  if is_pending s then .hang
  else
    let completed := completedState s opcode input input_modifier output resp
    if is_pending completed then .hang
    else
      match ReturnStatus.from_repr (completed.hcr.status_opcode >>> 24) with
      | none => .panic
      | some .Ok => .done completed (.ok completed.hcr.out_param)
      | some err => .done completed (.error err)

/-- The spec's notion of "the previous command is still pending": the go
bit is set, or the hardware toggle bit does not match the expected value.
After `exp_toggle` has been flipped for the next call, the toggle value
expected once the previous command has completed is the one written with
that previous command, i.e. `1 - exp_toggle`. -/
def pendingSpec (s : CmdState) : Bool :=
  decide (s.hcr.status_opcode &&& (1 <<< HCR_GO_BIT) ≠ 0) ||
  decide ((s.hcr.status_opcode >>> HCR_T_BIT) % 2 ≠ 1 - s.exp_toggle)

/-- Arguments of one command call together with the hardware's response. -/
structure CallSpec where
  opcode : Opcode
  input : Nat
  input_modifier : Nat
  output : Nat
  resp : HwResponse
deriving Repr, DecidableEq

/-- Run a sequence of `execute_command` calls; `none` as soon as one of
them hangs or panics. -/
def runCalls (s : CmdState) : List CallSpec → Option CmdState
  | [] => some s
  | c :: cs =>
    match execute_command s c.opcode c.input c.input_modifier c.output c.resp with
    | .done s' _ => runCalls s' cs
    | _ => none

/-- Software states reachable from `CommandMailBox::new` through completed
`execute_command` calls. -/
inductive ReachableCmd : CmdState → Prop where
  | init : ReachableCmd initCmdState
  | step {s s' : CmdState} {op : Opcode} {i m o : Nat} {resp : HwResponse}
      {r : Except ReturnStatus Nat} :
      ReachableCmd s → execute_command s op i m o resp = .done s' r →
      ReachableCmd s'


/-! ### Bit-level facts about the command protocol -/

theorem one_shl_eq_pow (i : Nat) : (1 : Nat) <<< i = 2 ^ i := by
  rw [Nat.shiftLeft_eq, one_mul]

theorem ctrlWord_testBit_21 (exp : Nat) (op : Opcode) (h : exp ≤ 1) :
    (ctrlWord exp op).testBit 21 = decide (exp = 1) := by
  have hop : op.val < 2 ^ 21 := lt_trans op.val_lt (by norm_num)
  have hop21 : op.val.testBit 21 = false := Nat.testBit_lt_two_pow hop
  unfold ctrlWord HCR_GO_BIT HCR_T_BIT
  interval_cases exp <;>
    simp only [Nat.testBit_lor, Nat.testBit_shiftLeft, hop21] <;> decide

theorem completed_testBit_23 (sb exp : Nat) (op : Opcode) :
    ((sb <<< 24) ||| (ctrlWord exp op % 2 ^ 23)).testBit 23 = false := by
  rw [Nat.testBit_lor]
  have h1 : (sb <<< 24).testBit 23 = false := by
    rw [Nat.testBit_shiftLeft]
    simp
  have h2 : (ctrlWord exp op % 2 ^ 23).testBit 23 = false := by
    rw [Nat.testBit_mod_two_pow]
    simp
  rw [h1, h2]
  rfl

theorem completed_testBit_21 (sb exp : Nat) (op : Opcode) (h : exp ≤ 1) :
    ((sb <<< 24) ||| (ctrlWord exp op % 2 ^ 23)).testBit 21 = decide (exp = 1) := by
  rw [Nat.testBit_lor]
  have h1 : (sb <<< 24).testBit 21 = false := by
    rw [Nat.testBit_shiftLeft]
    simp
  have h2 : (ctrlWord exp op % 2 ^ 23).testBit 21 = (ctrlWord exp op).testBit 21 := by
    rw [Nat.testBit_mod_two_pow]
    simp
  rw [h1, h2, ctrlWord_testBit_21 exp op h, Bool.false_or]

theorem completed_shiftRight_24 (sb exp : Nat) (op : Opcode) :
    ((sb <<< 24) ||| (ctrlWord exp op % 2 ^ 23)) >>> 24 = sb := by
  apply Nat.eq_of_testBit_eq
  intro j
  rw [Nat.testBit_shiftRight, Nat.testBit_lor, Nat.testBit_shiftLeft]
  have h2 : (ctrlWord exp op % 2 ^ 23).testBit (24 + j) = false := by
    rw [Nat.testBit_mod_two_pow]
    have hlt : ¬ (24 + j < 23) := by omega
    simp [hlt]
  have h3 : (24 : Nat) + j - 24 = j := by omega
  have h4 : decide (24 + j ≥ 24) = true := by simp
  rw [h2, h3, h4, Bool.true_and, Bool.or_false]

theorem and_one_shiftLeft_eq (x i : Nat) :
    x &&& (1 <<< i) = (x.testBit i).toNat * 2 ^ i := by
  rw [one_shl_eq_pow, Nat.and_two_pow]

theorem shiftRight_mod_two (x i : Nat) :
    (x >>> i) % 2 = (x.testBit i).toNat := by
  rw [Nat.shiftRight_eq_div_pow]
  rcases h : x.testBit i
  · rw [Nat.testBit_to_div_mod] at h
    simp only [decide_eq_false_iff_not] at h
    simp only [Bool.toNat_false]
    omega
  · rw [Nat.testBit_to_div_mod] at h
    simp only [decide_eq_true_eq] at h
    simp only [Bool.toNat_true]
    omega

/-- `is_pending` in terms of the status word's bits. -/
theorem is_pending_eq (s : CmdState) :
    is_pending s = ((s.hcr.status_opcode.testBit 23).toNat * 2 ^ 23 ≠ 0 ||
      decide ((s.hcr.status_opcode.testBit 21).toNat * 2 ^ 21 = s.exp_toggle)) := by
  unfold is_pending
  rw [show HCR_GO_BIT = 23 from rfl, show HCR_T_BIT = 21 from rfl,
    and_one_shiftLeft_eq, and_one_shiftLeft_eq]

/-- `pendingSpec` in terms of the status word's bits. -/
theorem pendingSpec_eq (s : CmdState) :
    pendingSpec s = ((s.hcr.status_opcode.testBit 23).toNat * 2 ^ 23 ≠ 0 ||
      decide ((s.hcr.status_opcode.testBit 21).toNat ≠ 1 - s.exp_toggle)) := by
  unfold pendingSpec
  rw [show HCR_GO_BIT = 23 from rfl, show HCR_T_BIT = 21 from rfl,
    and_one_shiftLeft_eq, shiftRight_mod_two]

/-- The software invariant maintained between `execute_command` calls:
`exp_toggle` is 0 or 1, the go bit of the last observed status word is
clear, and its toggle bit is the complement of `exp_toggle` (i.e. the
toggle written with the previous command). -/
def CmdInv (s : CmdState) : Prop :=
  s.exp_toggle ≤ 1 ∧ s.hcr.status_opcode.testBit 23 = false ∧
  s.hcr.status_opcode.testBit 21 = decide (s.exp_toggle = 0)

theorem cmdInv_init : CmdInv initCmdState := by
  refine ⟨by decide, ?_, ?_⟩ <;> simp [initCmdState]

theorem is_pending_false_of_inv {s : CmdState} (h : CmdInv s) :
    is_pending s = false := by
  obtain ⟨h1, h2, h3⟩ := h
  rw [is_pending_eq, h2, h3]
  interval_cases h : s.exp_toggle <;> simp

theorem pendingSpec_false_of_inv {s : CmdState} (h : CmdInv s) :
    pendingSpec s = false := by
  obtain ⟨h1, h2, h3⟩ := h
  rw [pendingSpec_eq, h2, h3]
  interval_cases h : s.exp_toggle <;> simp

theorem is_pending_completed_false {s : CmdState} (h1 : s.exp_toggle ≤ 1)
    (op : Opcode) (i m o : Nat) (resp : HwResponse) :
    is_pending (completedState s op i m o resp) = false := by
  rw [is_pending_eq]
  have e1 : (completedState s op i m o resp).hcr.status_opcode =
      (resp.statusByte <<< 24) ||| (ctrlWord s.exp_toggle op % 2 ^ 23) := rfl
  have e2 : (completedState s op i m o resp).exp_toggle = s.exp_toggle ^^^ 1 := rfl
  rw [e1, e2, completed_testBit_23, completed_testBit_21 _ _ _ h1]
  interval_cases h : s.exp_toggle <;> simp

theorem cmdInv_completed {s : CmdState} (h1 : s.exp_toggle ≤ 1)
    (op : Opcode) (i m o : Nat) (resp : HwResponse) :
    CmdInv (completedState s op i m o resp) := by
  refine ⟨?_, ?_, ?_⟩
  · show s.exp_toggle ^^^ 1 ≤ 1
    interval_cases h : s.exp_toggle <;> decide
  · exact completed_testBit_23 _ _ _
  · show ((resp.statusByte <<< 24) |||
        (ctrlWord s.exp_toggle op % 2 ^ 23)).testBit 21 =
      decide (s.exp_toggle ^^^ 1 = 0)
    rw [completed_testBit_21 _ _ _ h1]
    interval_cases h : s.exp_toggle <;> simp

/-- Under the invariant, one call completes with the firmware's response
decoded exactly as the source does. -/
theorem execute_command_eq_of_inv {s : CmdState} (h : CmdInv s)
    (op : Opcode) (i m o : Nat) (resp : HwResponse) :
    execute_command s op i m o resp =
      match ReturnStatus.from_repr resp.statusByte with
      | none => .panic
      | some .Ok => .done (completedState s op i m o resp) (.ok resp.outVal)
      | some err => .done (completedState s op i m o resp) (.error err) := by
  unfold execute_command
  rw [is_pending_false_of_inv h]
  simp only [Bool.false_eq_true, if_false]
  rw [is_pending_completed_false h.1 op i m o resp]
  simp only [Bool.false_eq_true, if_false]
  rw [show (completedState s op i m o resp).hcr.status_opcode =
    (resp.statusByte <<< 24) ||| (ctrlWord s.exp_toggle op % 2 ^ 23) from rfl]
  rw [completed_shiftRight_24]
  rw [show (completedState s op i m o resp).hcr.out_param = resp.outVal from rfl]

/-- Whatever a completed call returns, its final state is the completed
state, whose toggle has been flipped exactly once. -/
theorem execute_command_done {s s' : CmdState} {op : Opcode} {i m o : Nat}
    {resp : HwResponse} {r : Except ReturnStatus Nat}
    (h : execute_command s op i m o resp = .done s' r) :
    s' = completedState s op i m o resp ∧
      s'.exp_toggle = s.exp_toggle ^^^ 1 := by
  simp only [execute_command] at h
  split at h
  · exact absurd h (by simp)
  · split at h
    · exact absurd h (by simp)
    · split at h
      · exact absurd h (by simp)
      · injection h with h1 h2
        exact ⟨h1.symm, by rw [← h1]; rfl⟩
      · injection h with h1 h2
        exact ⟨h1.symm, by rw [← h1]; rfl⟩

theorem cmdInv_of_reachable {s : CmdState} (h : ReachableCmd s) : CmdInv s := by
  induction h with
  | init => exact cmdInv_init
  | step hr hexec ih =>
    obtain ⟨hs, -⟩ := execute_command_done hexec
    rw [hs]
    exact cmdInv_completed ih.1 _ _ _ _ _

theorem runCalls_exp_toggle (cs : List CallSpec) :
    ∀ s s' : CmdState, runCalls s cs = some s' →
      s'.exp_toggle = s.exp_toggle ^^^ (cs.length % 2) := by
  induction cs with
  | nil =>
    intro s s' h
    simp only [runCalls, Option.some.injEq] at h
    rw [← h]
    simp
  | cons c cs ih =>
    intro s s' h
    simp only [runCalls] at h
    split at h
    case _ s1 r heq =>
      have hflip := (execute_command_done heq).2
      have hih := ih s1 s' h
      rw [hih, hflip, Nat.xor_assoc]
      congr 1
      rcases Nat.mod_two_eq_zero_or_one cs.length with h0 | h0
      · rw [h0, show (1 : Nat) ^^^ 0 = 1 from rfl]
        simp only [List.length_cons]
        omega
      · rw [h0, show (1 : Nat) ^^^ 1 = 0 from rfl]
        simp only [List.length_cons]
        omega
    case _ =>
      exact absurd h (by simp)

/-- The `Result<u64, ReturnStatus>` of a call that returned, if any. -/
def execResult : ExecOutcome → Option (Except ReturnStatus Nat)
  | .done _ r => some r
  | _ => none

theorem from_repr_eq_ok {n : Nat}
    (h : ReturnStatus.from_repr n = some .Ok) : n = 0 := by
  unfold ReturnStatus.from_repr at h
  split at h <;> first | rfl | simp_all

/-- C1: starting from `CommandMailBox::new` (expected toggle 1), any
sequence of N completed `execute_command` calls leaves the expected
toggle bit at `1 XOR (N mod 2)` — it is flipped exactly once per call —
and in every reachable state a new call's busy-wait exits immediately
with the previous command not pending (go bit clear and hardware toggle
bit matching the expected completion value), so the input registers
`in_param`, `in_mod`, `out_param` and `token` are never overwritten
while a command is still pending. -/
theorem c1_toggle_bit_protocol :
    (∀ (calls : List CallSpec) (s' : CmdState),
      runCalls initCmdState calls = some s' →
      s'.exp_toggle = 1 ^^^ (calls.length % 2)) ∧
    ∀ s : CmdState, ReachableCmd s →
      is_pending s = false ∧ pendingSpec s = false := by
  constructor
  · intro calls s' h
    exact runCalls_exp_toggle calls initCmdState s' h
  · intro s hs
    have hinv := cmdInv_of_reachable hs
    exact ⟨is_pending_false_of_inv hinv, pendingSpec_false_of_inv hinv⟩

/-- Witness for C1 at a concrete one-call sequence. -/
theorem c1_toggle_bit_protocol_witness :
    runCalls initCmdState [⟨Opcode.QueryFw, 0, 0, 0, ⟨0, 7⟩⟩] =
      some (completedState initCmdState Opcode.QueryFw 0 0 0 ⟨0, 7⟩) ∧
    (completedState initCmdState Opcode.QueryFw 0 0 0 ⟨0, 7⟩).exp_toggle =
      1 ^^^ (1 % 2) ∧
    is_pending initCmdState = false ∧ pendingSpec initCmdState = false := by
  refine ⟨rfl, ?_, ?_, ?_⟩
  · exact c1_toggle_bit_protocol.1 [⟨Opcode.QueryFw, 0, 0, 0, ⟨0, 7⟩⟩] _ rfl
  · exact (c1_toggle_bit_protocol.2 initCmdState ReachableCmd.init).1
  · exact (c1_toggle_bit_protocol.2 initCmdState ReachableCmd.init).2

/-- C2, counterexample to the claim as stated: a completed command whose
status byte is 7 — a non-zero value with no corresponding
`ReturnStatus` discriminant — makes `execute_command` panic
(`.expect("return status invalid")`) instead of returning an `Err`
carrying a status code. -/
theorem c2_counterexample_status_7 :
    execute_command initCmdState Opcode.QueryFw 0 0 0 ⟨7, 0⟩ =
      ExecOutcome.panic := by
  rfl

/-- C2 (amended): for every completed command, the call returns
`Ok(out_param)` exactly when the status byte is 0; every non-zero status
byte that is one of the enumerated `ReturnStatus` discriminants is
returned verbatim as `Err` of that code, with no retry; and a status
byte outside the enumeration panics instead. -/
theorem c2_status_mapping (s : CmdState) (hinv : CmdInv s) (op : Opcode)
    (i m o : Nat) (resp : HwResponse) :
    (execResult (execute_command s op i m o resp) = some (.ok resp.outVal) ↔
      resp.statusByte = 0) ∧
    (∀ e : ReturnStatus, ReturnStatus.from_repr resp.statusByte = some e →
      e ≠ .Ok →
      execResult (execute_command s op i m o resp) = some (.error e)) ∧
    (ReturnStatus.from_repr resp.statusByte = none →
      execute_command s op i m o resp = .panic) := by
  rw [execute_command_eq_of_inv hinv op i m o resp]
  refine ⟨?_, ?_, ?_⟩
  · constructor
    · intro h
      rcases hrep : ReturnStatus.from_repr resp.statusByte with _ | e
      · rw [hrep] at h
        exact absurd h (by simp [execResult])
      · rw [hrep] at h
        cases e <;> first
          | exact from_repr_eq_ok hrep
          | exact absurd h (by simp [execResult])
    · intro h
      rw [h]
      rfl
  · intro e hrep hne
    rw [hrep]
    cases e <;> first | exact absurd rfl hne | rfl
  · intro hrep
    rw [hrep]

/-- Witness for C2 (amended) at concrete status bytes 6 and 0. -/
theorem c2_status_mapping_witness :
    execResult (execute_command initCmdState Opcode.QueryFw 0 0 0 ⟨6, 0⟩) =
      some (.error .ResourceBusy) ∧
    execResult (execute_command initCmdState Opcode.QueryFw 0 0 0 ⟨0, 42⟩) =
      some (.ok 42) := by
  refine ⟨(c2_status_mapping initCmdState cmdInv_init Opcode.QueryFw 0 0 0
      ⟨6, 0⟩).2.1 ReturnStatus.ResourceBusy rfl (by decide),
    (c2_status_mapping initCmdState cmdInv_init Opcode.QueryFw 0 0 0
      ⟨0, 42⟩).1.mpr rfl⟩

/-! ## Capabilities (fw.rs), profile planning (profile.rs) -/

/-- `memory::PAGE_SIZE` on this target. -/
def PAGE_SIZE : Nat := 4096

/-- The fields of `Capabilities` (fw.rs, bitfield `Capabilities`) consumed
by the embedded functions: the per-table entry sizes (u16 fields), the
maximum ICM size, and the reserved-object counts used to seed the
hardware-number counters. -/
structure Capabilities where
  qpc_entry_sz : Nat
  rdmarc_entry_sz : Nat
  altc_entry_sz : Nat
  aux_entry_sz : Nat
  srq_entry_sz : Nat
  cqc_entry_sz : Nat
  eqc_entry_sz : Nat
  d_mpt_entry_sz : Nat
  c_mpt_entry_sz : Nat
  mtt_entry_sz : Nat
  max_icm_sz : Nat
  log2_rsvd_qps : Nat
  log2_rsvd_cqs : Nat
  log2_rsvd_mtts : Nat
  log2_rsvd_mrws : Nat
  num_rsvd_eqs : Nat
  log_max_qp_sz : Nat
  max_sg_sq : Nat
  max_sg_rq : Nat
  max_desc_sz_sq : Nat
deriving Repr, DecidableEq

/-- `ResourceType` from profile.rs. -/
inductive ResourceType where
  | QP | RDMARC | ALTC | AUXC | SRQ | CQ | EQ | DMPT | CMPT | MTT | MCG
deriving Repr, DecidableEq

/-- `Resource` from profile.rs. -/
structure Resource where
  size : Nat
  start : Nat
  typ : ResourceType
  num : Nat
deriving Repr, DecidableEq

def DEFAULT_NUM_QP : Nat := 1 <<< 17
def DEFAULT_NUM_SRQ : Nat := 1 <<< 16
def DEFAULT_RDMARC_PER_QP : Nat := 1 <<< 4
def DEFAULT_NUM_CQ : Nat := 1 <<< 16
def DEFAULT_NUM_MCG : Nat := 1 <<< 13
def DEFAULT_NUM_MPT : Nat := 1 <<< 19
def DEFAULT_NUM_MTT : Nat := 1 <<< 20
def MAX_NUM_EQS : Nat := 1 <<< 9

/-- `mcg::get_mgm_entry_size`: `1 << DEFAULT_MGM_LOG_ENTRY_SIZE`. -/
def get_mgm_entry_size : Nat := 1 <<< 10

/-- `log_mtt_per_seg` from `make_profile`. -/
def log_mtt_per_seg : Nat := 3

/-- The `profiles` array of `make_profile` after the two assignment
blocks (sizes from the capability record, counts from the defaults), in
`ResourceType` discriminant order. -/
def initialResources (caps : Capabilities) : List Resource :=
  [ ⟨caps.qpc_entry_sz, 0, .QP, DEFAULT_NUM_QP⟩,
    ⟨caps.rdmarc_entry_sz, 0, .RDMARC, DEFAULT_NUM_QP * DEFAULT_RDMARC_PER_QP⟩,
    ⟨caps.altc_entry_sz, 0, .ALTC, DEFAULT_NUM_QP⟩,
    ⟨caps.aux_entry_sz, 0, .AUXC, DEFAULT_NUM_QP⟩,
    ⟨caps.srq_entry_sz, 0, .SRQ, DEFAULT_NUM_SRQ⟩,
    ⟨caps.cqc_entry_sz, 0, .CQ, DEFAULT_NUM_CQ⟩,
    ⟨caps.eqc_entry_sz, 0, .EQ, MAX_NUM_EQS⟩,
    ⟨caps.d_mpt_entry_sz, 0, .DMPT, DEFAULT_NUM_MPT⟩,
    ⟨caps.c_mpt_entry_sz, 0, .CMPT, 4 <<< 24⟩,
    ⟨caps.mtt_entry_sz, 0, .MTT, DEFAULT_NUM_MTT * (1 <<< log_mtt_per_seg)⟩,
    ⟨get_mgm_entry_size, 0, .MCG, DEFAULT_NUM_MCG⟩ ]

/-- `u64::next_power_of_two`, by doubling: the first power of two `≥ n`.
The fuel of 64 matches the u64 width; every count fed to it here is a
fixed constant `≤ 2^26`, far below overflow (`checked_…().unwrap()`
never panics in this code). -/
def next_pow2_go (acc n : Nat) : Nat → Nat
  | 0 => acc
  | fuel + 1 => if n ≤ acc then acc else next_pow2_go (2 * acc) n fuel

def next_power_of_two (n : Nat) : Nat := next_pow2_go 1 n 64

/-- The first `for` loop of `make_profile`: round the object count up to
the next power of two, multiply the entry size by it, and clamp the
result up to one page. -/
def normalizeResource (r : Resource) : Resource :=
  let num := next_power_of_two r.num
  let size := r.size * num
  { r with num := num,
           size := if size < PAGE_SIZE then PAGE_SIZE else size }

/-- Descending-size order between resources. -/
def sizeGE (a b : Resource) : Prop := b.size ≤ a.size

instance : DecidableRel sizeGE := fun a b => Nat.decLe b.size a.size

instance : IsTotal Resource sizeGE :=
  ⟨fun a b => Nat.le_total b.size a.size⟩

instance : IsTrans Resource sizeGE :=
  ⟨fun _ _ _ h1 h2 => Nat.le_trans h2 h1⟩

/-- `profiles.sort_unstable_by_key(|p| p.size)` followed by
`profiles.reverse()`.  The Rust call promises only *some* permutation in
ascending size order; we model the composition as an insertion sort into
descending size order, and every property proved below depends only on
the result being a size-descending permutation of the input. -/
def sortResources (l : List Resource) : List Resource :=
  List.insertionSort sizeGE l

/-- The second `for` loop of `make_profile`: assign each resource a start
offset equal to the running total, accumulate the total, and fail as
soon as the running total exceeds `caps.max_icm_sz()`. -/
def assignBases (total maxIcm : Nat) :
    List Resource → Except String (List Resource × Nat)
  | [] => .ok ([], total)
  | r :: rest =>
    let r' := { r with start := total }
    let total' := total + r.size
    if total' > maxIcm then .error "total size > maximum ICM size"
    else
      match assignBases total' maxIcm rest with
      | .ok (rs, t) => .ok (r' :: rs, t)
      | .error e => .error e

/-- `make_profile` (profile.rs), restricted to the parts the claims are
about: the placed resources and `total_size`.  (The remaining code only
copies fields of the placed resources into `InitHcaParameters`.) -/
def make_profile (caps : Capabilities) :
    Except String (List Resource × Nat) :=
  assignBases 0 caps.max_icm_sz
    (sortResources ((initialResources caps).map normalizeResource))

/-- Sum of the (normalized) table sizes. -/
def sumSizes (l : List Resource) : Nat := (l.map Resource.size).sum

theorem sumSizes_nil : sumSizes [] = 0 := rfl

theorem sumSizes_cons (r : Resource) (l : List Resource) :
    sumSizes (r :: l) = r.size + sumSizes l := by
  simp [sumSizes]

/-- The layout produced by the base-assignment loop: each resource gets
the running total as its start offset. -/
def place (b : Nat) : List Resource → List Resource
  | [] => []
  | r :: rest => { r with start := b } :: place (b + r.size) rest

theorem place_length (b : Nat) (l : List Resource) :
    (place b l).length = l.length := by
  induction l generalizing b with
  | nil => rfl
  | cons r rest ih => simp [place, ih]

theorem place_map_size (b : Nat) (l : List Resource) :
    (place b l).map Resource.size = l.map Resource.size := by
  induction l generalizing b with
  | nil => rfl
  | cons r rest ih => simp [place, ih]

theorem sumSizes_place (b : Nat) (l : List Resource) :
    sumSizes (place b l) = sumSizes l := by
  unfold sumSizes
  rw [place_map_size]

theorem place_mem_shape (b : Nat) (l : List Resource) (r' : Resource)
    (h : r' ∈ place b l) : ∃ x ∈ l, r'.size = x.size ∧ r'.num = x.num := by
  induction l generalizing b with
  | nil => simp [place] at h
  | cons r rest ih =>
    simp only [place, List.mem_cons] at h
    rcases h with h | h
    · exact ⟨r, List.mem_cons_self r rest, by rw [h], by rw [h]⟩
    · obtain ⟨x, hx, hsz, hnum⟩ := ih _ h
      exact ⟨x, List.mem_cons_of_mem r hx, hsz, hnum⟩

theorem place_start_ge (b : Nat) (l : List Resource) (r' : Resource)
    (h : r' ∈ place b l) : b ≤ r'.start := by
  induction l generalizing b with
  | nil => simp [place] at h
  | cons r rest ih =>
    simp only [place, List.mem_cons] at h
    rcases h with h | h
    · rw [h]
    · exact le_trans (Nat.le_add_right b r.size) (ih _ h)

theorem place_chain (b : Nat) (l : List Resource) :
    List.Chain' (fun a c => c.start = a.start + a.size) (place b l) := by
  induction l generalizing b with
  | nil => simp [place]
  | cons r rest ih =>
    cases rest with
    | nil => simp [place]
    | cons x rest' =>
      refine List.Chain'.cons ?_ (ih (b + r.size))
      rfl

theorem place_pairwise (b : Nat) (l : List Resource) :
    List.Pairwise (fun a c => a.start + a.size ≤ c.start) (place b l) := by
  induction l generalizing b with
  | nil => simp [place]
  | cons r rest ih =>
    refine List.Pairwise.cons ?_ (ih (b + r.size))
    intro r' hr'
    exact place_start_ge (b + r.size) rest r' hr'

theorem pow2_dvd_of_le {a b : Nat} (ha : ∃ j, a = 2 ^ j)
    (hb : ∃ k, b = 2 ^ k) (h : a ≤ b) : a ∣ b := by
  obtain ⟨j, rfl⟩ := ha
  obtain ⟨k, rfl⟩ := hb
  exact pow_dvd_pow 2 ((Nat.pow_le_pow_iff_right (by norm_num)).mp h)

theorem place_aligned (l : List Resource) :
    ∀ b, (∀ x ∈ l, ∃ k, x.size = 2 ^ k) → List.Sorted sizeGE l →
    (∀ x ∈ l, x.size ∣ b) → ∀ r' ∈ place b l, r'.size ∣ r'.start := by
  induction l with
  | nil =>
    intro b _ _ _ r' hr'
    simp [place] at hr'
  | cons r rest ih =>
    intro b hpow hsorted hdvd r' hr'
    simp only [place, List.mem_cons] at hr'
    rcases hr' with hr' | hr'
    · rw [hr']
      exact hdvd r (List.mem_cons_self r rest)
    · rcases List.sorted_cons.mp hsorted with ⟨hhead, htail⟩
      refine ih (b + r.size) ?_ htail ?_ r' hr'
      · intro x hx
        exact hpow x (List.mem_cons_of_mem r hx)
      · intro x hx
        refine Nat.dvd_add (hdvd x (List.mem_cons_of_mem r hx)) ?_
        exact pow2_dvd_of_le (hpow x (List.mem_cons_of_mem r hx))
          (hpow r (List.mem_cons_self r rest)) (hhead x hx)

theorem place_sorted (b : Nat) (l : List Resource)
    (h : List.Sorted sizeGE l) : List.Sorted sizeGE (place b l) := by
  induction l generalizing b with
  | nil => simp [place]
  | cons r rest ih =>
    rcases List.sorted_cons.mp h with ⟨hhead, htail⟩
    refine List.sorted_cons.mpr ⟨?_, ih (b + r.size) htail⟩
    · intro r' hr'
      obtain ⟨x, hx, hsz, -⟩ := place_mem_shape _ _ _ hr'
      show r'.size ≤ r.size
      rw [hsz]
      exact hhead x hx

/-- Exact behaviour of the base-assignment loop: the offsets are the
running totals, and the loop fails exactly when the grand total
exceeds the budget (the check runs after every prefix, and prefix sums
only grow). -/
theorem assignBases_eq (l : List Resource) :
    ∀ total maxIcm,
      assignBases total maxIcm l =
        if l ≠ [] ∧ total + sumSizes l > maxIcm
        then .error "total size > maximum ICM size"
        else .ok (place total l, total + sumSizes l) := by
  induction l with
  | nil =>
    intro total maxIcm
    simp [assignBases, place, sumSizes]
  | cons r rest ih =>
    intro total maxIcm
    simp only [assignBases]
    by_cases h1 : total + r.size > maxIcm
    · rw [if_pos h1, if_pos]
      constructor
      · simp
      · rw [sumSizes_cons]
        omega
    · rw [if_neg h1, ih (total + r.size) maxIcm]
      by_cases h2 : rest ≠ [] ∧ total + r.size + sumSizes rest > maxIcm
      · rw [if_pos h2, if_pos]
        constructor
        · simp
        · rw [sumSizes_cons]
          omega
      · rw [if_neg h2, if_neg]
        · show Except.ok ({ r with start := total } :: place (total + r.size) rest,
            total + r.size + sumSizes rest) =
            Except.ok (place total (r :: rest), total + sumSizes (r :: rest))
          rw [show place total (r :: rest) =
            { r with start := total } :: place (total + r.size) rest from rfl]
          rw [sumSizes_cons]
          congr 1
          rw [Nat.add_assoc]
        · intro hcon
          rcases hcon with ⟨-, hgt⟩
          rw [sumSizes_cons] at hgt
          rcases not_and_or.mp h2 with h3 | h3
          · have : rest = [] := not_not.mp h3
            rw [this] at hgt
            simp [sumSizes] at hgt
            omega
          · omega

theorem next_pow2_go_pow2 : ∀ (fuel acc n : Nat), (∃ k, acc = 2 ^ k) →
    ∃ k, next_pow2_go acc n fuel = 2 ^ k := by
  intro fuel
  induction fuel with
  | zero => intro acc n h; exact h
  | succ f ih =>
    intro acc n h
    unfold next_pow2_go
    split
    · exact h
    · obtain ⟨k, hk⟩ := h
      refine ih (2 * acc) n ⟨k + 1, ?_⟩
      rw [hk, pow_succ]
      ring

theorem normalize_size_pow2 (r : Resource)
    (h : r.size = 0 ∨ ∃ k, r.size = 2 ^ k) :
    ∃ k, (normalizeResource r).size = 2 ^ k := by
  obtain ⟨j, hj⟩ := next_pow2_go_pow2 64 1 r.num ⟨0, rfl⟩
  show ∃ k, (if r.size * next_power_of_two r.num < PAGE_SIZE
    then PAGE_SIZE else r.size * next_power_of_two r.num) = 2 ^ k
  split
  · exact ⟨12, rfl⟩
  · rcases h with h0 | ⟨k, hk⟩
    · rename_i hge
      exfalso
      apply hge
      rw [h0, Nat.zero_mul]
      decide
    · refine ⟨k + j, ?_⟩
      rw [hk, show next_power_of_two r.num = 2 ^ j from hj, pow_add]

theorem normalized_initial_facts (caps : Capabilities)
    (hpow : ∀ r ∈ initialResources caps, r.size = 0 ∨ ∃ k, r.size = 2 ^ k) :
    ∀ r ∈ (initialResources caps).map normalizeResource,
      (∃ k, r.size = 2 ^ k) ∧ (∃ k, r.num = 2 ^ k) := by
  intro r hr
  rw [List.mem_map] at hr
  obtain ⟨x, hx, rfl⟩ := hr
  refine ⟨normalize_size_pow2 x (hpow x hx), ?_⟩
  show ∃ k, next_pow2_go 1 x.num 64 = 2 ^ k
  exact next_pow2_go_pow2 64 1 x.num ⟨0, rfl⟩

theorem initialResources_length (caps : Capabilities) :
    (initialResources caps).length = 11 := rfl

/-- The layout properties of a successful base assignment, for any
size-descending list of power-of-two-sized resources. -/
theorem assign_ok_properties (maxIcm : Nat) (S : List Resource)
    (hsortedS : List.Sorted sizeGE S)
    (hfacts : ∀ r ∈ S, (∃ k, r.size = 2 ^ k) ∧ (∃ k, r.num = 2 ^ k))
    (hlenS : S.length = 11)
    (rs : List Resource) (total : Nat)
    (hok : assignBases 0 maxIcm S = .ok (rs, total)) :
    rs.length = 11 ∧
    (∀ r ∈ rs, ∃ k, r.num = 2 ^ k) ∧
    (∀ r ∈ rs, r.size ∣ r.start) ∧
    List.Sorted sizeGE rs ∧
    List.Chain' (fun a c => c.start = a.start + a.size) rs ∧
    rs.head?.map Resource.start = some 0 ∧
    List.Pairwise (fun a c => a.start + a.size ≤ c.start) rs ∧
    sumSizes rs = total ∧ total ≤ maxIcm := by
  have hSne : S ≠ [] := by
    intro hnil
    rw [hnil] at hlenS
    exact absurd hlenS (by decide)
  rw [assignBases_eq] at hok
  split at hok
  · exact absurd hok (by simp)
  · rename_i hcond
    injection hok with hok
    injection hok with hrs htotal
    have hle : total ≤ maxIcm := by
      rcases not_and_or.mp hcond with hc | hc
      · exact absurd hSne hc
      · omega
    refine ⟨?_, ?_, ?_, ?_, ?_, ?_, ?_, ?_, hle⟩
    · rw [← hrs, place_length, hlenS]
    · intro r hr
      rw [← hrs] at hr
      obtain ⟨x, hx, -, hnum⟩ := place_mem_shape _ _ _ hr
      rw [hnum]
      exact (hfacts x hx).2
    · intro r hr
      rw [← hrs] at hr
      refine place_aligned _ 0 ?_ hsortedS ?_ r hr
      · intro x hx
        exact (hfacts x hx).1
      · intro x hx
        exact Nat.dvd_zero x.size
    · rw [← hrs]
      exact place_sorted 0 _ hsortedS
    · rw [← hrs]
      exact place_chain 0 _
    · rw [← hrs]
      rcases S with _ | ⟨s, S'⟩
      · exact absurd rfl hSne
      · rfl
    · rw [← hrs]
      exact place_pairwise 0 _
    · rw [← hrs, sumSizes_place, ← htotal]
      omega

/-- The base-assignment loop fails with the capacity error whenever the
grand total exceeds the budget. -/
theorem assign_error (maxIcm : Nat) (S : List Resource) (hne : S ≠ [])
    (hgt : sumSizes S > maxIcm) :
    assignBases 0 maxIcm S = .error "total size > maximum ICM size" := by
  rw [assignBases_eq, if_pos ⟨hne, by omega⟩]

/-- C3 (amended): provided every table entry size reported by the card is
zero or a power of two (as the hardware's entry sizes are), a successful
`make_profile` places 11 tables whose object counts are powers of two,
whose base offsets are each a multiple of the table's own size, in
descending size order, gap-free from offset 0 (each base is the end of
the previous table, so no two `[base, base+size)` ranges overlap), with
`sum(size) = total_size ≤ max_icm_size`; and whenever the grand total
exceeds `max_icm_size`, `make_profile` fails with the capacity error.
Without the power-of-two proviso the alignment part is false, see the
counterexample. -/
theorem c3_profile_packing (caps : Capabilities)
    (hpow : ∀ r ∈ initialResources caps, r.size = 0 ∨ ∃ k, r.size = 2 ^ k) :
    (∀ rs total, make_profile caps = .ok (rs, total) →
      rs.length = 11 ∧
      (∀ r ∈ rs, ∃ k, r.num = 2 ^ k) ∧
      (∀ r ∈ rs, r.size ∣ r.start) ∧
      List.Sorted sizeGE rs ∧
      List.Chain' (fun a c => c.start = a.start + a.size) rs ∧
      rs.head?.map Resource.start = some 0 ∧
      List.Pairwise (fun a c => a.start + a.size ≤ c.start) rs ∧
      sumSizes rs = total ∧ total ≤ caps.max_icm_sz) ∧
    (sumSizes ((initialResources caps).map normalizeResource) >
        caps.max_icm_sz →
      make_profile caps = .error "total size > maximum ICM size") := by
  have hperm := List.perm_insertionSort sizeGE
    ((initialResources caps).map normalizeResource)
  have hsortedS := List.sorted_insertionSort sizeGE
    ((initialResources caps).map normalizeResource)
  have hfacts : ∀ r ∈ sortResources ((initialResources caps).map normalizeResource),
      (∃ k, r.size = 2 ^ k) ∧ (∃ k, r.num = 2 ^ k) := by
    intro r hr
    exact normalized_initial_facts caps hpow r (hperm.mem_iff.mp hr)
  have hlenS : (sortResources ((initialResources caps).map normalizeResource)).length = 11 := by
    rw [sortResources, hperm.length_eq, List.length_map, initialResources_length]
  have hsumS : sumSizes (sortResources ((initialResources caps).map normalizeResource)) =
      sumSizes ((initialResources caps).map normalizeResource) := by
    unfold sumSizes
    exact (hperm.map Resource.size).sum_eq
  constructor
  · intro rs total hok
    unfold make_profile at hok
    exact assign_ok_properties caps.max_icm_sz _ hsortedS hfacts hlenS rs total hok
  · intro hgt
    unfold make_profile
    refine assign_error _ _ ?_ ?_
    · intro hnil
      rw [hnil] at hlenS
      exact absurd hlenS (by decide)
    · omega

/-- A capability set with a non-power-of-two QPC entry size (3 bytes) and
a large CQC entry size; profile construction succeeds on it. -/
def capsBad : Capabilities :=
  { qpc_entry_sz := 3, rdmarc_entry_sz := 0, altc_entry_sz := 0,
    aux_entry_sz := 0, srq_entry_sz := 0, cqc_entry_sz := 8192,
    eqc_entry_sz := 0, d_mpt_entry_sz := 0, c_mpt_entry_sz := 0,
    mtt_entry_sz := 0, max_icm_sz := 2 ^ 60, log2_rsvd_qps := 0,
    log2_rsvd_cqs := 0, log2_rsvd_mtts := 0, log2_rsvd_mrws := 0,
    num_rsvd_eqs := 0, log_max_qp_sz := 0, max_sg_sq := 0, max_sg_rq := 0,
    max_desc_sz_sq := 0 }

/-- C3, counterexample to the claim as stated: on `capsBad` profile
construction succeeds, but the QP table (size 3·2^17 = 393216, placed
after the 2^29-byte CQ table and the 2^23-byte MCG table at offset
545259520) has a base offset that is not a multiple of its own size, so
"every table's base offset is a multiple of that table's own size" fails
for an arbitrary capability set. -/
theorem c3_counterexample_alignment :
    (make_profile capsBad).toOption.elim true
      (fun p => p.1.all (fun r => decide (r.start % r.size = 0))) = false := by
  decide

/-- A demonstration capability set with hardware-like power-of-two entry
sizes and a 2^40-byte ICM budget. -/
def capsDemo : Capabilities :=
  { qpc_entry_sz := 256, rdmarc_entry_sz := 32, altc_entry_sz := 64,
    aux_entry_sz := 128, srq_entry_sz := 128, cqc_entry_sz := 128,
    eqc_entry_sz := 128, d_mpt_entry_sz := 64, c_mpt_entry_sz := 64,
    mtt_entry_sz := 8, max_icm_sz := 2 ^ 40, log2_rsvd_qps := 7,
    log2_rsvd_cqs := 7, log2_rsvd_mtts := 4, log2_rsvd_mrws := 5,
    num_rsvd_eqs := 16, log_max_qp_sz := 16, max_sg_sq := 32,
    max_sg_rq := 32, max_desc_sz_sq := 512 }

/-- `capsDemo` with the ICM budget shrunk to 2^20 bytes. -/
def capsSmall : Capabilities := { capsDemo with max_icm_sz := 2 ^ 20 }

theorem capsDemo_sizes_pow2 :
    ∀ r ∈ initialResources capsDemo, r.size = 0 ∨ ∃ k, r.size = 2 ^ k := by
  intro r hr
  simp only [initialResources, List.mem_cons, List.not_mem_nil, or_false] at hr
  rcases hr with rfl | rfl | rfl | rfl | rfl | rfl | rfl | rfl | rfl | rfl | rfl
  · exact Or.inr ⟨8, rfl⟩
  · exact Or.inr ⟨5, rfl⟩
  · exact Or.inr ⟨6, rfl⟩
  · exact Or.inr ⟨7, rfl⟩
  · exact Or.inr ⟨7, rfl⟩
  · exact Or.inr ⟨7, rfl⟩
  · exact Or.inr ⟨7, rfl⟩
  · exact Or.inr ⟨6, rfl⟩
  · exact Or.inr ⟨6, rfl⟩
  · exact Or.inr ⟨3, rfl⟩
  · exact Or.inr ⟨10, rfl⟩

theorem capsSmall_sizes_pow2 :
    ∀ r ∈ initialResources capsSmall, r.size = 0 ∨ ∃ k, r.size = 2 ^ k := by
  intro r hr
  simp only [initialResources, List.mem_cons, List.not_mem_nil, or_false] at hr
  rcases hr with rfl | rfl | rfl | rfl | rfl | rfl | rfl | rfl | rfl | rfl | rfl
  · exact Or.inr ⟨8, rfl⟩
  · exact Or.inr ⟨5, rfl⟩
  · exact Or.inr ⟨6, rfl⟩
  · exact Or.inr ⟨7, rfl⟩
  · exact Or.inr ⟨7, rfl⟩
  · exact Or.inr ⟨7, rfl⟩
  · exact Or.inr ⟨7, rfl⟩
  · exact Or.inr ⟨6, rfl⟩
  · exact Or.inr ⟨6, rfl⟩
  · exact Or.inr ⟨3, rfl⟩
  · exact Or.inr ⟨10, rfl⟩

/-- Witness for C3 (amended) on `capsDemo` (success side, sum = total ≤
budget) and `capsSmall` (failure side, the capacity error). -/
theorem c3_profile_packing_witness :
    ((make_profile capsDemo).toOption.elim false
      (fun p => decide (sumSizes p.1 = p.2 ∧ p.2 ≤ capsDemo.max_icm_sz ∧
        p.1.length = 11))) = true ∧
    make_profile capsSmall = .error "total size > maximum ICM size" := by
  constructor
  · obtain ⟨rs, total, hok⟩ : ∃ rs total,
        make_profile capsDemo = .ok (rs, total) := ⟨_, _, rfl⟩
    obtain ⟨hlen, -, -, -, -, -, -, hsum, hle⟩ :=
      (c3_profile_packing capsDemo capsDemo_sizes_pow2).1 rs total hok
    rw [hok]
    exact decide_eq_true ⟨hsum, hle, hlen⟩
  · refine (c3_profile_packing capsSmall capsSmall_sizes_pow2).2 ?_
    decide

/-! ## ICM table chunking (icm.rs, `init_icm_table`) -/

/-- `TABLE_CHUNK_SIZE` = `1 << 18` = 256 KiB. -/
def TABLE_CHUNK_SIZE : Nat := 262144

/-- `usize::next_multiple_of` for a positive modulus. -/
def next_multiple_of (x m : Nat) : Nat := (x + m - 1) / m * m

/-- The chunk size chosen by iteration `idx` of the `init_icm_table`
loop: start from `TABLE_CHUNK_SIZE`; if the next chunk boundary would
pass the end of the table, trim to the remaining table bytes rounded up
to a page; if that leaves zero pages, map a single page.  The mapped
size is always `num_pages * PAGE_SIZE`, which equals this value. -/
def icmChunkSize (tableSize idx : Nat) : Nat :=
  let cs := if (idx + 1) * TABLE_CHUNK_SIZE > tableSize
    then next_multiple_of (tableSize - idx * TABLE_CHUNK_SIZE) PAGE_SIZE
    else TABLE_CHUNK_SIZE
  let num_pages := cs / PAGE_SIZE
  if num_pages = 0 then 1 * PAGE_SIZE else num_pages * PAGE_SIZE

/-- The `while idx * TABLE_CHUNK_SIZE < reserved * obj_size` loop of
`init_icm_table`, producing for each chunk its card-virtual start
address and its mapped byte size. -/
def init_icm_table_go (objSize objNum reserved virt : Nat) (idx : Nat) :
    List (Nat × Nat) :=
  if idx * TABLE_CHUNK_SIZE < reserved * objSize then
    (virt + idx * TABLE_CHUNK_SIZE, icmChunkSize (objSize * objNum) idx)
      :: init_icm_table_go objSize objNum reserved virt (idx + 1)
  else []
termination_by reserved * objSize - idx * TABLE_CHUNK_SIZE
decreasing_by
  simp only [TABLE_CHUNK_SIZE] at *
  omega

/-- `MappedIcmAuxiliaryArea::init_icm_table` (icm.rs): the list of mapped
chunks of the reserved part of one ICM table. -/
def init_icm_table (objSize objNum reserved virt : Nat) : List (Nat × Nat) :=
  init_icm_table_go objSize objNum reserved virt 0

/-- Number of chunks the loop produces:
`ceil(reserved_bytes / TABLE_CHUNK_SIZE)`. -/
def icmChunkCount (objSize reserved : Nat) : Nat :=
  (reserved * objSize + TABLE_CHUNK_SIZE - 1) / TABLE_CHUNK_SIZE

theorem icmChunkSize_bounds (ts i : Nat) (hpos : i * TABLE_CHUNK_SIZE < ts) :
    0 < icmChunkSize ts i ∧ icmChunkSize ts i ≤ TABLE_CHUNK_SIZE ∧
    min (ts - i * TABLE_CHUNK_SIZE) TABLE_CHUNK_SIZE ≤ icmChunkSize ts i ∧
    ((i + 1) * TABLE_CHUNK_SIZE ≤ ts →
      icmChunkSize ts i = TABLE_CHUNK_SIZE) := by
  simp only [icmChunkSize, next_multiple_of, TABLE_CHUNK_SIZE, PAGE_SIZE]
    at hpos ⊢
  by_cases hgt : (i + 1) * 262144 > ts
  · rw [if_pos hgt]
    split <;> omega
  · rw [if_neg hgt]
    split <;> omega

theorem init_icm_table_go_eq (objSize objNum reserved virt : Nat) :
    ∀ (m idx : Nat), icmChunkCount objSize reserved - idx ≤ m →
      init_icm_table_go objSize objNum reserved virt idx =
        (List.range' idx (icmChunkCount objSize reserved - idx)).map
          (fun i => (virt + i * TABLE_CHUNK_SIZE,
            icmChunkSize (objSize * objNum) i)) := by
  intro m
  induction m with
  | zero =>
    intro idx h
    have hge : ¬ idx * TABLE_CHUNK_SIZE < reserved * objSize := by
      simp only [icmChunkCount, TABLE_CHUNK_SIZE] at h ⊢
      omega
    unfold init_icm_table_go
    rw [if_neg hge, show icmChunkCount objSize reserved - idx = 0 from by omega]
    rfl
  | succ m ih =>
    intro idx h
    by_cases hc : idx * TABLE_CHUNK_SIZE < reserved * objSize
    · have hlt : idx < icmChunkCount objSize reserved := by
        simp only [icmChunkCount, TABLE_CHUNK_SIZE] at hc ⊢
        omega
      unfold init_icm_table_go
      rw [if_pos hc, ih (idx + 1) (by omega)]
      rw [show icmChunkCount objSize reserved - idx =
        (icmChunkCount objSize reserved - (idx + 1)) + 1 from by omega]
      rw [List.range'_succ]
      rfl
    · have hn : icmChunkCount objSize reserved ≤ idx := by
        simp only [icmChunkCount, TABLE_CHUNK_SIZE] at hc ⊢
        omega
      unfold init_icm_table_go
      rw [if_neg hc, show icmChunkCount objSize reserved - idx = 0 from by omega]
      rfl

theorem init_icm_table_covered (objSize objNum reserved virt : Nat)
    (h2 : reserved ≤ objNum) :
    ∀ (m idx : Nat), icmChunkCount objSize reserved - idx ≤ m →
      idx * TABLE_CHUNK_SIZE ≤ reserved * objSize →
      (reserved * objSize ≤ idx * TABLE_CHUNK_SIZE +
        ((init_icm_table_go objSize objNum reserved virt idx).map Prod.snd).sum) ∧
      (reserved * objSize % TABLE_CHUNK_SIZE = 0 →
        idx * TABLE_CHUNK_SIZE +
          ((init_icm_table_go objSize objNum reserved virt idx).map Prod.snd).sum =
          reserved * objSize) := by
  have hrbts : reserved * objSize ≤ objSize * objNum := by
    rw [Nat.mul_comm]
    exact Nat.mul_le_mul_left objSize h2
  intro m
  induction m with
  | zero =>
    intro idx h hle
    have hge : ¬ idx * TABLE_CHUNK_SIZE < reserved * objSize := by
      simp only [icmChunkCount, TABLE_CHUNK_SIZE] at h ⊢
      omega
    unfold init_icm_table_go
    rw [if_neg hge]
    simp only [List.map_nil, List.sum_nil]
    omega
  | succ m ih =>
    intro idx h hle
    by_cases hc : idx * TABLE_CHUNK_SIZE < reserved * objSize
    · have hpos : idx * TABLE_CHUNK_SIZE < objSize * objNum := by omega
      have hbounds := icmChunkSize_bounds (objSize * objNum) idx hpos
      unfold init_icm_table_go
      rw [if_pos hc]
      simp only [List.map_cons, List.sum_cons]
      by_cases hnext : (idx + 1) * TABLE_CHUNK_SIZE ≤ reserved * objSize
      · have hcnt : icmChunkCount objSize reserved - (idx + 1) ≤ m := by
          simp only [icmChunkCount, TABLE_CHUNK_SIZE] at h hnext ⊢
          omega
        have hih := ih (idx + 1) hcnt hnext
        have hfull : icmChunkSize (objSize * objNum) idx = TABLE_CHUNK_SIZE :=
          hbounds.2.2.2 (by omega)
        rw [hfull]
        simp only [TABLE_CHUNK_SIZE] at *
        omega
      · have hstop : init_icm_table_go objSize objNum reserved virt (idx + 1) = [] := by
          unfold init_icm_table_go
          rw [if_neg (by omega)]
        rw [hstop]
        simp only [List.map_nil, List.sum_nil]
        constructor
        · simp only [TABLE_CHUNK_SIZE] at *
          omega
        · intro hdvd
          have hrb1 : reserved * objSize = (idx + 1) * TABLE_CHUNK_SIZE := by
            simp only [TABLE_CHUNK_SIZE] at *
            omega
          have hfull : icmChunkSize (objSize * objNum) idx = TABLE_CHUNK_SIZE :=
            hbounds.2.2.2 (by omega)
          rw [hfull]
          simp only [TABLE_CHUNK_SIZE] at *
          omega
    · have hge0 : icmChunkCount objSize reserved - idx = 0 := by
        simp only [icmChunkCount, TABLE_CHUNK_SIZE] at hc ⊢
        omega
      unfold init_icm_table_go
      rw [if_neg hc]
      simp only [List.map_nil, List.sum_nil]
      omega

/-- `Chain'` over an arithmetic index range, from a relation between
consecutive indices. -/
theorem chain'_range'_aux (R : Nat → Nat → Prop) :
    ∀ (n s : Nat), (∀ i, s ≤ i → i + 2 ≤ s + n → R i (i + 1)) →
      List.Chain' R (List.range' s n) := by
  intro n
  induction n with
  | zero =>
    intro s h
    simp
  | succ m ih =>
    intro s h
    rw [List.range'_succ]
    rw [List.chain'_cons']
    constructor
    · intro y hy
      cases m with
      | zero => simp at hy
      | succ k =>
        rw [List.range'_succ] at hy
        simp only [List.head?_cons, Option.mem_def, Option.some.injEq] at hy
        rw [← hy]
        exact h s (Nat.le_refl s) (by omega)
    · refine ih (s + 1) ?_
      intro i hi hbound
      exact h i (by omega) (by omega)

/-- C4 (amended): for every table (any positive entry size, any reserved
count within the table), the chunks mapped by `init_icm_table` are each
at most 256 KiB, ordered by increasing virtual offset, pairwise
disjoint, and back-to-back starting at `virtual_base` (each chunk starts
exactly where the previous one ends), so their union is the contiguous
range `[virtual_base, virtual_base + sum-of-chunk-sizes)`.  That union
*covers* the reserved prefix `[virtual_base, virtual_base +
reserved_count·entry_size)`, and whenever the reserved byte count is a
multiple of 256 KiB it equals the reserved prefix exactly.  For
non-divisible reserved byte counts the union can be strictly larger —
the counterexample maps a full 256 KiB chunk for a 1024-byte reserved
prefix — so the original claim's unconditional exact equality does not
hold.  (Equality can still occur without divisibility, when the trimmed
last chunk ends exactly at the reserved prefix, e.g. when the reserved
bytes reach the page-rounded table end.) -/
theorem c4_icm_chunk_coverage (objSize objNum reserved virt : Nat)
    (h1 : 0 < objSize) (h2 : reserved ≤ objNum) :
    (∀ c ∈ init_icm_table objSize objNum reserved virt,
      0 < c.2 ∧ c.2 ≤ TABLE_CHUNK_SIZE) ∧
    List.Chain' (fun a b => b.1 = a.1 + a.2)
      (init_icm_table objSize objNum reserved virt) ∧
    List.Pairwise (fun a b => a.1 + a.2 ≤ b.1)
      (init_icm_table objSize objNum reserved virt) ∧
    (0 < reserved →
      (init_icm_table objSize objNum reserved virt).head?.map Prod.fst =
        some virt) ∧
    reserved * objSize ≤
      ((init_icm_table objSize objNum reserved virt).map Prod.snd).sum ∧
    (reserved * objSize % TABLE_CHUNK_SIZE = 0 →
      ((init_icm_table objSize objNum reserved virt).map Prod.snd).sum =
        reserved * objSize) := by
  have hrbts : reserved * objSize ≤ objSize * objNum := by
    rw [Nat.mul_comm]
    exact Nat.mul_le_mul_left objSize h2
  have heq : init_icm_table objSize objNum reserved virt =
      (List.range' 0 (icmChunkCount objSize reserved)).map
        (fun i => (virt + i * TABLE_CHUNK_SIZE,
          icmChunkSize (objSize * objNum) i)) := by
    rw [show init_icm_table objSize objNum reserved virt =
      init_icm_table_go objSize objNum reserved virt 0 from rfl]
    rw [init_icm_table_go_eq objSize objNum reserved virt
      (icmChunkCount objSize reserved) 0 (by omega)]
    rw [Nat.sub_zero]
  have hidx : ∀ i, i < icmChunkCount objSize reserved →
      i * TABLE_CHUNK_SIZE < reserved * objSize := by
    intro i hi
    simp only [icmChunkCount, TABLE_CHUNK_SIZE] at hi ⊢
    omega
  refine ⟨?_, ?_, ?_, ?_, ?_, ?_⟩
  · intro c hc
    rw [heq] at hc
    rw [List.mem_map] at hc
    obtain ⟨i, hi, rfl⟩ := hc
    rw [List.mem_range'] at hi
    obtain ⟨j, hj, hij⟩ := hi
    have hilt : i < icmChunkCount objSize reserved := by omega
    have hb := icmChunkSize_bounds (objSize * objNum) i
      (by have := hidx i hilt; omega)
    exact ⟨hb.1, hb.2.1⟩
  · rw [heq, List.chain'_map]
    refine chain'_range'_aux _ (icmChunkCount objSize reserved) 0 ?_
    intro i hi hbound
    have hfull : icmChunkSize (objSize * objNum) i = TABLE_CHUNK_SIZE := by
      refine (icmChunkSize_bounds (objSize * objNum) i ?_).2.2.2 ?_
      · have := hidx i (by omega)
        omega
      · have := hidx (i + 1) (by omega)
        omega
    show virt + (i + 1) * TABLE_CHUNK_SIZE =
      virt + i * TABLE_CHUNK_SIZE + icmChunkSize (objSize * objNum) i
    rw [hfull]
    ring
  · rw [heq, List.pairwise_map]
    refine (List.pairwise_lt_range' 0 (icmChunkCount objSize reserved)).imp_of_mem ?_
    intro i j hi hj hij
    rw [List.mem_range'] at hi
    obtain ⟨a, ha, hia⟩ := hi
    have hilt : i < icmChunkCount objSize reserved := by omega
    have hb := icmChunkSize_bounds (objSize * objNum) i
      (by have := hidx i hilt; omega)
    show virt + i * TABLE_CHUNK_SIZE + icmChunkSize (objSize * objNum) i ≤
      virt + j * TABLE_CHUNK_SIZE
    have hsz := hb.2.1
    simp only [TABLE_CHUNK_SIZE] at *
    omega
  · intro hres
    have hn : 0 < icmChunkCount objSize reserved := by
      simp only [icmChunkCount, TABLE_CHUNK_SIZE]
      have : 0 < reserved * objSize := Nat.mul_pos hres h1
      omega
    obtain ⟨n', hn'⟩ : ∃ n', icmChunkCount objSize reserved = n' + 1 :=
      ⟨icmChunkCount objSize reserved - 1, by omega⟩
    rw [heq, hn', List.range'_succ]
    simp
  · have hcov := init_icm_table_covered objSize objNum reserved virt h2
      (icmChunkCount objSize reserved) 0 (by omega) (by omega)
    have := hcov.1
    rw [show init_icm_table objSize objNum reserved virt =
      init_icm_table_go objSize objNum reserved virt 0 from rfl]
    omega
  · intro hdvd
    have hcov := init_icm_table_covered objSize objNum reserved virt h2
      (icmChunkCount objSize reserved) 0 (by omega) (by omega)
    have := hcov.2 hdvd
    rw [show init_icm_table objSize objNum reserved virt =
      init_icm_table_go objSize objNum reserved virt 0 from rfl]
    omega

/-- C4, counterexample to the claim as stated: a table with 64-byte
entries, 16384 objects and 16 reserved entries has reserved byte size
16·64 = 1024, not divisible by 256 KiB; `init_icm_table` maps a single
256 KiB chunk, so the union of the chunks' virtual ranges is
`[0, 262144)`, strictly larger than the reserved prefix `[0, 1024)` —
the union does not *equal* the reserved prefix in the non-divisible
case. -/
theorem c4_counterexample_exact_cover :
    init_icm_table 64 16384 16 0 = [(0, 262144)] ∧
    16 * 64 = 1024 ∧ (262144 : Nat) ≠ 1024 := by
  refine ⟨?_, rfl, by decide⟩
  rw [show init_icm_table 64 16384 16 0 =
    init_icm_table_go 64 16384 16 0 0 from rfl]
  rw [init_icm_table_go_eq 64 16384 16 0 (icmChunkCount 64 16) 0 (by decide)]
  decide

/-- Witness for C4 (amended) at a divisible reserved size: 4096 entries
of 64 bytes reserve exactly one 256 KiB chunk, and the chunks start at
the virtual base. -/
theorem c4_icm_chunk_coverage_witness :
    ((init_icm_table 64 16384 4096 0).map Prod.snd).sum = 4096 * 64 ∧
    (init_icm_table 64 16384 4096 0).head?.map Prod.fst = some 0 := by
  refine ⟨?_, ?_⟩
  · exact (c4_icm_chunk_coverage 64 16384 4096 0 (by decide)
      (by decide)).2.2.2.2.2 (by decide)
  · exact (c4_icm_chunk_coverage 64 16384 4096 0 (by decide)
      (by decide)).2.2.2.1 (by decide)

/-! ## MTT allocation (icm.rs, `MrTable::alloc_mtt`) -/

/-- The fields of `MrTable` that `alloc_mtt` touches: the reserved MTT
count and the monotonically advancing allocation cursor. -/
structure MrTable where
  reserved_mtts : Nat
  offset : Nat
deriving Repr, DecidableEq

/-- One WriteMtt command payload: the translation-table offset word and
the entry word (physical address with the present bit). -/
structure WriteMttCommand where
  offset : Nat
  entry : Nat
deriving Repr, DecidableEq

def MTT_FLAG_PRESENT : Nat := 1

/-- `MrTable::alloc_mtt`: take the next free slot range past the
reserved boundary, advance the cursor by `num_entries`, and issue one
WriteMtt command per physical page with the present bit set.  Returns
`(addr, commands, new table state)` where `addr` is the value returned
to the caller. -/
def alloc_mtt (t : MrTable) (mtt_entry_sz num_entries buf : Nat) :
    Nat × List WriteMttCommand × MrTable :=
  let addr := (t.reserved_mtts + t.offset) * mtt_entry_sz
  (addr,
   (List.range num_entries).map (fun idx =>
     ⟨addr + idx, (buf + idx * PAGE_SIZE) ||| MTT_FLAG_PRESENT⟩),
   { t with offset := t.offset + num_entries })

/-- The reserved MTT count computed in `map_icm_tables`: the card's
reserved MTT entries rounded up to a 64-byte cache line. -/
def reserved_mtts_of (caps : Capabilities) : Nat :=
  next_multiple_of ((1 <<< caps.log2_rsvd_mtts) * caps.mtt_entry_sz) 64 /
    caps.mtt_entry_sz

theorem or_one_mod_two (x : Nat) : (x ||| 1) % 2 = 1 := by
  have h := shiftRight_mod_two (x ||| 1) 0
  rw [Nat.shiftRight_zero] at h
  rw [h, Nat.testBit_lor]
  simp

/-- C5, counterexample to the claim as stated: with the hardware-like
capability set (`mtt_entry_sz = 8`, 16 reserved MTT entries after
cache-line rounding), the first `alloc_mtt` call on a fresh `MrTable`
returns `(R + 0) * mtt_entry_sz = 128`, not the reserved count `R = 16`:
the returned translation-table offsets are scaled by the entry size. -/
theorem c5_counterexample_offset_units :
    reserved_mtts_of capsDemo = 16 ∧
    (alloc_mtt ⟨reserved_mtts_of capsDemo, 0⟩ capsDemo.mtt_entry_sz 4
      4096).1 = 128 ∧
    (128 : Nat) ≠ 16 := by
  decide

/-- C5 (amended): two `alloc_mtt` calls on a fresh `MrTable` with 4 and
then 8 pages return the byte-scaled offsets `R·mtt_entry_sz` and
`(R+4)·mtt_entry_sz` where `R` is the reserved MTT count; exactly
4 + 8 = 12 WriteMtt commands are issued, one per page, every entry word
carrying the present bit; and the allocation cursor never decreases
across any `alloc_mtt` call. -/
theorem c5_alloc_mtt_scenario (esz R buf1 buf2 : Nat) :
    (alloc_mtt ⟨R, 0⟩ esz 4 buf1).1 = R * esz ∧
    (alloc_mtt (alloc_mtt ⟨R, 0⟩ esz 4 buf1).2.2 esz 8 buf2).1 =
      (R + 4) * esz ∧
    (alloc_mtt ⟨R, 0⟩ esz 4 buf1).2.1.length +
      (alloc_mtt (alloc_mtt ⟨R, 0⟩ esz 4 buf1).2.2 esz 8 buf2).2.1.length =
        12 ∧
    (∀ c ∈ (alloc_mtt ⟨R, 0⟩ esz 4 buf1).2.1 ++
      (alloc_mtt (alloc_mtt ⟨R, 0⟩ esz 4 buf1).2.2 esz 8 buf2).2.1,
      c.entry % 2 = 1) ∧
    (∀ (t : MrTable) (n b : Nat),
      t.offset ≤ ((alloc_mtt t esz n b).2.2).offset) := by
  refine ⟨rfl, rfl, rfl, ?_, ?_⟩
  · intro c hc
    rw [List.mem_append] at hc
    rcases hc with hc | hc <;>
    · simp only [alloc_mtt, List.mem_map, List.mem_range] at hc
      obtain ⟨i, -, rfl⟩ := hc
      exact or_one_mod_two _
  · intro t n b
    exact Nat.le_add_right t.offset n

/-! ## Hardware-number counters (lib.rs, `Offsets`) and completion-queue
creation (completion_queue.rs) -/

/-- `Offsets` from lib.rs. -/
structure Offsets where
  next_cqn : Nat
  next_qpn : Nat
  next_dmpt : Nat
  next_eqn : Nat
  next_sqc_doorbell_index : Nat
  next_eq_doorbell_index : Nat
deriving Repr, DecidableEq

/-- `Offsets::init`: every counter starts just past the card's reserved
range (and the SQ/CQ doorbell index at 128). -/
def Offsets.init (caps : Capabilities) : Offsets :=
  { next_cqn := 1 <<< caps.log2_rsvd_cqs,
    next_qpn := 1 <<< caps.log2_rsvd_qps,
    next_dmpt := 1 <<< caps.log2_rsvd_mrws,
    next_eqn := caps.num_rsvd_eqs,
    next_sqc_doorbell_index := 128,
    next_eq_doorbell_index := caps.num_rsvd_eqs / 4 }

/-- `Offsets::alloc_cqn`. -/
def Offsets.alloc_cqn (o : Offsets) : Nat × Offsets :=
  (o.next_cqn, { o with next_cqn := o.next_cqn + 1 })

/-- `Offsets::alloc_eqn`. -/
def Offsets.alloc_eqn (o : Offsets) : Nat × Offsets :=
  (o.next_eqn, { o with next_eqn := o.next_eqn + 1 })

/-- `Offsets::alloc_scq_db`. -/
def Offsets.alloc_scq_db (o : Offsets) : Nat × Offsets :=
  (o.next_sqc_doorbell_index,
   { o with next_sqc_doorbell_index := o.next_sqc_doorbell_index + 1 })

/-- Modelled from the spec: `queue_pair.rs` calls `offsets.alloc_qpn()`
and lib.rs declares and seeds the `next_qpn` counter, but this snapshot
lacks the `alloc_qpn` body; the spec's "hardware number allocated from a
per-kind monotonic counter" gives it the same shape as `alloc_cqn` and
`alloc_eqn`. -/
def Offsets.alloc_qpn (o : Offsets) : Nat × Offsets :=
  (o.next_qpn, { o with next_qpn := o.next_qpn + 1 })

/-- `u32::ilog2` (floor base-2 logarithm), by scanning the 64 possible
bit positions; callers only use it on positive values below 2^63. -/
def ilog2 (n : Nat) : Nat :=
  (List.range 64).foldl (fun acc k => if 2 ^ k ≤ n then k else acc) 0

/-- `CQE_SIZE` from `CompletionQueue::new`. -/
def CQE_SIZE : Nat := 32

/-- The fields of `CompletionQueue` that the claims are about. -/
structure CqModel where
  number : Nat
  num_entries : Nat
  num_pages : Nat
  log_size : Nat
  uar_idx : Nat
deriving Repr, DecidableEq

/-- `CompletionQueue::new` (sizing and numbering): allocate the hardware
number and doorbell index, size the ring buffer for `num_entries` CQEs
rounded up to whole pages, and program `log_size = num_entries.ilog2()`
into the hardware context.  `ConnectX3Nic::create_cq` passes its
`min_num_entries` argument through unchanged. -/
def CompletionQueue.new (offsets : Offsets) (num_entries : Nat) :
    CqModel × Offsets :=
  let (number, o1) := offsets.alloc_cqn
  let (uar_idx, o2) := o1.alloc_scq_db
  let num_pages := next_multiple_of (num_entries * CQE_SIZE) PAGE_SIZE /
    PAGE_SIZE
  (⟨number, num_entries, num_pages, ilog2 num_entries, uar_idx⟩, o2)

/-- C6: evaluation of `create_cq` with `min_num_entries = 100` at the
failing input.  The hardware numbers behave as claimed — the first call
returns `1 << log2_rsvd_cqs` and the second one more — but no rounding
to the next power of two exists anywhere on this path: the ring keeps
100 entries and the hardware context is programmed with
`log_size = ilog2(100) = 6`, i.e. a 64-entry ring, not the claimed 128
(`log_size` 7). -/
theorem c6_create_cq_100_eval (caps : Capabilities) :
    (CompletionQueue.new (Offsets.init caps) 100).1.number =
      1 <<< caps.log2_rsvd_cqs ∧
    (CompletionQueue.new
      (CompletionQueue.new (Offsets.init caps) 100).2 100).1.number =
      1 <<< caps.log2_rsvd_cqs + 1 ∧
    (CompletionQueue.new (Offsets.init caps) 100).1.num_entries = 100 ∧
    (CompletionQueue.new (Offsets.init caps) 100).1.log_size = 6 ∧
    (100 : Nat) ≠ 128 ∧ (6 : Nat) ≠ 7 := by
  refine ⟨rfl, rfl, rfl, ?_, by decide, by decide⟩
  show ilog2 100 = 6
  decide

/-! ## Queue-pair state machine (queue_pair.rs, `QueuePair::modify`) -/

/-- `ibv_qp_state` (mlx_infiniband). -/
inductive QpState where
  | reset | init | rtr | rts | sqd
deriving Repr, DecidableEq

/-- `ibv_qp_type` (mlx_infiniband). -/
inductive QpType where
  | rc | uc | ud
deriving Repr, DecidableEq

/-- Modelled from the spec: the queue-pair state-transition opcodes
(`Rst2InitQp`, `Init2InitQp`, `Any2RstQp`) used by queue_pair.rs are not
in this snapshot's cmd.rs `Opcode` enum; §4.5 maps each transition to
one firmware opcode of these names. -/
inductive QpOpcode where
  | rst2initQp | init2initQp | any2rstQp
deriving Repr, DecidableEq

/-- What the `match (self.state, attr_mask.contains(IBV_QP_STATE),
attr.qp_state)` in `QueuePair::modify` selects: the `todo!()` arm
(INIT with a requested transition to RTR) panics, the catch-all returns
`Err("invalid state transition")` before any command is built, and the
remaining arms choose the firmware opcode.  The arms appear in source
order; like the Rust `match`, the first matching arm wins. -/
inductive TransitionChoice where
  | panic
  | invalid
  | cmd (op : QpOpcode)
deriving Repr, DecidableEq

def selectTransition (state : QpState) (maskHasState : Bool)
    (target : QpState) : TransitionChoice :=
  match state, maskHasState, target with
  | .reset, true, .init => .cmd .rst2initQp
  | .reset, false, _ => .cmd .any2rstQp
  | .init, true, .rtr => .panic
  | .init, true, .init => .cmd .init2initQp
  | .init, false, _ => .cmd .init2initQp
  | _, true, .reset => .cmd .any2rstQp
  | _, _, _ => .invalid

/-- Result of one `QueuePair::modify` call: either the `todo!()` panic,
or the list of firmware commands issued, the returned `Result`, and the
queue pair's `state` field afterwards. -/
inductive ModifyOutcome where
  | panic
  | res (cmds : List QpOpcode) (r : Except String Unit) (finalState : QpState)

/-- `QueuePair::modify`: select the transition; on the catch-all arm
return the error with no command and the state untouched; otherwise
execute the one command — if it fails (`cmdOk = false`) the `?` operator
returns its error before `self.state` is updated; on success the state
is overwritten with `attr.qp_state` only when the mask carries
`IBV_QP_STATE`. -/
def QueuePair.modify (state : QpState) (maskHasState : Bool)
    (target : QpState) (cmdOk : Bool) : ModifyOutcome :=
  match selectTransition state maskHasState target with
  | .panic => .panic
  | .invalid => .res [] (.error "invalid state transition") state
  | .cmd op =>
    if cmdOk then
      .res [op] (.ok ()) (if maskHasState then target else state)
    else
      .res [op] (.error "command failed") state

/-- The `(state, target)` pairs accepted by the `match` when the mask
requests a state change: RESET→INIT, INIT→INIT, INIT→RTR (the
unimplemented arm), and anything→RESET. -/
def allowedPair (s t : QpState) : Prop :=
  (s = .reset ∧ t = .init) ∨ (s = .init ∧ (t = .init ∨ t = .rtr)) ∨
    t = .reset

instance (s t : QpState) : Decidable (allowedPair s t) := by
  unfold allowedPair
  infer_instance

/-- C7: a requested transition to RESET is accepted (the `Any2RstQp`
abort path) from every state; every requested transition outside the
accepted set — for example RESET directly to RTS — returns
`Err("invalid state transition")`, issues no firmware command and
leaves the logical state unchanged; and whenever the firmware command
itself fails, the logical state is also left unchanged. -/
theorem c7_qp_state_transitions :
    (∀ s : QpState, selectTransition s true .reset = .cmd .any2rstQp) ∧
    (∀ (s t : QpState) (cmdOk : Bool), ¬ allowedPair s t →
      QueuePair.modify s true t cmdOk =
        .res [] (.error "invalid state transition") s) ∧
    (∀ (s t : QpState) (mask : Bool) (cmds : List QpOpcode)
      (r : Except String Unit) (fin : QpState),
      QueuePair.modify s mask t false = .res cmds r fin → fin = s) := by
  refine ⟨?_, ?_, ?_⟩
  · intro s
    cases s <;> rfl
  · intro s t cmdOk h
    cases s <;> cases t <;>
      first
      | rfl
      | exact absurd (by decide) h
  · intro s t mask cmds r fin h
    rcases hsel : selectTransition s mask t with _ | _ | op <;>
      simp only [QueuePair.modify, hsel, reduceIte,
        ModifyOutcome.res.injEq, reduceCtorEq] at h
    · exact h.2.2.symm
    · exact h.2.2.symm

/-- Witness for C7: the abort path is accepted from RTS; RESET→RTS is
rejected with the invalid-transition error, no command and unchanged
state; a failed Init2InitQp command leaves the state at INIT. -/
theorem c7_qp_state_transitions_witness :
    selectTransition .rts true .reset = .cmd .any2rstQp ∧
    QueuePair.modify .reset true .rts true =
      .res [] (.error "invalid state transition") .reset ∧
    QpState.init = QpState.init := by
  refine ⟨c7_qp_state_transitions.1 .rts,
    c7_qp_state_transitions.2.1 .reset .rts true (by decide),
    c7_qp_state_transitions.2.2 .init .init true [.init2initQp]
      (.error "command failed") .init rfl⟩

/-! ## Send-queue stamping (queue_pair.rs, `WqeControlSegment::stamp`) -/

/-- `u32::swap_bytes`, the effect of `u32::to_be` on this little-endian
target. -/
def byteSwap32 (x : Nat) : Nat :=
  ((x % 256) <<< 24) ||| ((x >>> 8 % 256) <<< 16) |||
    ((x >>> 16 % 256) <<< 8) ||| (x >>> 24 % 256)

/-- The value a later `.get()` reads back from `vlan_cv_f_ds` after the
RESET→INIT path stores `u32::to_be(1 << (wqe_shift - 4)).into()`:
`U32<BigEndian>::from` already performs the endianness conversion, so
the explicit `u32::to_be` swaps the bytes a second time and `.get()`
returns the byte-swapped descriptor-size field. -/
def vlan_cv_f_ds_value (wqe_shift : Nat) : Nat :=
  byteSwap32 ((1 <<< (wqe_shift - 4)) % 2 ^ 32)

/-- The offsets `(64..size).step_by(64)` visited by `stamp`'s loop: the
positive multiples of 64 below `size`. -/
def stamp_offsets_of_size (size : Nat) : List Nat :=
  ((List.range ((size + 63) / 64)).map (fun k => k * 64)).filter
    (fun o => 64 ≤ o)

/-- `WqeControlSegment::stamp`: read the ds word back, take its low 6
bits as the descriptor size in 16-byte units, and write `0xffffffff` at
the start of every 64-byte chunk except the first. -/
def stamp (dsWord : Nat) : List Nat :=
  stamp_offsets_of_size ((dsWord &&& 0x3f) <<< 4)

/-- The offsets stamped into one send descriptor by the RESET→INIT path
of `QueuePair::modify`, as a function of the send queue's `wqe_shift`. -/
def modify_stamp_offsets (wqe_shift : Nat) : List Nat :=
  stamp (vlan_cv_f_ds_value wqe_shift)

/-- Modelled from the spec: the stamping the claim (and `stamp`'s own
doc comment) intends — a sentinel word at the start of every 64-byte
sub-chunk of a `1 << wqe_shift`-byte descriptor except its first
chunk. -/
def spec_stamp_offsets (wqe_shift : Nat) : List Nat :=
  stamp_offsets_of_size (1 <<< wqe_shift)

/-- C8: evaluation at the failing input.  For 128-byte send descriptors
(`wqe_shift = 7`) the claim requires the sentinel at offset 64 of every
descriptor, but the ds field read back by `stamp` is byte-swapped
(`0x08000000`), its low 6 bits are 0, the computed byte size is 0 and
the stamping loop writes nothing at all.  (The owner bit
`owner_opcode = 1 << 31` is set as claimed; it is the sentinel writes
that are missing.) -/
theorem c8_stamp_writes_nothing :
    modify_stamp_offsets 7 = [] ∧
    spec_stamp_offsets 7 = [64] ∧
    vlan_cv_f_ds_value 7 = 0x08000000 ∧
    (vlan_cv_f_ds_value 7 &&& 0x3f) <<< 4 = 0 ∧
    modify_stamp_offsets 10 = [] ∧
    spec_stamp_offsets 10 = [64, 128, 192, 256, 320, 384, 448, 512, 576,
      640, 704, 768, 832, 896, 960] := by
  refine ⟨by decide, by decide, by decide, by decide, by decide, by decide⟩

/-! ## Object-number allocation across a session (lib.rs) -/

/-- The three hardware-object kinds with per-kind counters. -/
inductive HwKind where
  | cq | eq | qp
deriving Repr, DecidableEq

/-- One driver call that touches the hardware-object tables.  A create
carries the outcome of its firmware command (`Sw2HwCq`/`Sw2HwEq`/
`Rst2InitQp`); the number allocation happens before the command is
posted, so the counter advances whether or not the command succeeds.
Destroys never touch the counters. -/
inductive SessionEvent where
  | createCq (cmdOk : Bool)
  | destroyCq (n : Nat)
  | createEq (cmdOk : Bool)
  | destroyEq (n : Nat)
  | createQp (cmdOk : Bool)
  | destroyQp (n : Nat)
deriving Repr, DecidableEq

/-- The counter update and the hardware number issued by one event. -/
def stepSession (o : Offsets) : SessionEvent → Offsets × List (HwKind × Nat)
  | .createCq _ => ((o.alloc_cqn).2, [(.cq, (o.alloc_cqn).1)])
  | .createEq _ => ((o.alloc_eqn).2, [(.eq, (o.alloc_eqn).1)])
  | .createQp _ => ((o.alloc_qpn).2, [(.qp, (o.alloc_qpn).1)])
  | .destroyCq _ => (o, [])
  | .destroyEq _ => (o, [])
  | .destroyQp _ => (o, [])

/-- A session: the final counters and every hardware number issued, in
order, with its kind. -/
def runSession (o : Offsets) : List SessionEvent → Offsets × List (HwKind × Nat)
  | [] => (o, [])
  | e :: es =>
    ((runSession (stepSession o e).1 es).1,
      (stepSession o e).2 ++ (runSession (stepSession o e).1 es).2)

/-- The numbers issued for one object kind, in issue order. -/
def issuedOf (k : HwKind) (l : List (HwKind × Nat)) : List Nat :=
  (l.filter (fun p => p.1 == k)).map Prod.snd

/-- The counter of one object kind. -/
def counterOf (k : HwKind) (o : Offsets) : Nat :=
  match k with
  | .cq => o.next_cqn
  | .eq => o.next_eqn
  | .qp => o.next_qpn

theorem issuedOf_nil (k : HwKind) : issuedOf k [] = [] := rfl

theorem issuedOf_cons (k j : HwKind) (n : Nat) (l : List (HwKind × Nat)) :
    issuedOf k ((j, n) :: l) =
      if j = k then n :: issuedOf k l else issuedOf k l := by
  simp only [issuedOf, List.filter_cons]
  by_cases h : j = k
  · subst h
    simp
  · simp [h]

theorem session_cons_step (k : HwKind) (es : List SessionEvent)
    (o' : Offsets) (c n0 : Nat) (hn0 : c ≤ n0)
    (hlt : counterOf k o' = n0 + 1)
    (H : counterOf k o' ≤ counterOf k (runSession o' es).1 ∧
      (∀ n ∈ issuedOf k (runSession o' es).2,
        counterOf k o' ≤ n ∧ n < counterOf k (runSession o' es).1) ∧
      List.Pairwise (fun a b => a < b) (issuedOf k (runSession o' es).2)) :
    c ≤ counterOf k (runSession o' es).1 ∧
    (∀ n ∈ n0 :: issuedOf k (runSession o' es).2,
      c ≤ n ∧ n < counterOf k (runSession o' es).1) ∧
    List.Pairwise (fun a b => a < b)
      (n0 :: issuedOf k (runSession o' es).2) := by
  obtain ⟨ihc, ihb, ihp⟩ := H
  refine ⟨by omega, ?_, ?_⟩
  · intro n hn
    rw [List.mem_cons] at hn
    rcases hn with rfl | hn
    · omega
    · have := ihb n hn
      omega
  · refine List.Pairwise.cons ?_ ihp
    intro b hb
    have := ihb b hb
    omega

theorem session_skip_step (k : HwKind) (es : List SessionEvent)
    (o' : Offsets) (c : Nat) (hc : c = counterOf k o')
    (H : counterOf k o' ≤ counterOf k (runSession o' es).1 ∧
      (∀ n ∈ issuedOf k (runSession o' es).2,
        counterOf k o' ≤ n ∧ n < counterOf k (runSession o' es).1) ∧
      List.Pairwise (fun a b => a < b) (issuedOf k (runSession o' es).2)) :
    c ≤ counterOf k (runSession o' es).1 ∧
    (∀ n ∈ issuedOf k (runSession o' es).2,
      c ≤ n ∧ n < counterOf k (runSession o' es).1) ∧
    List.Pairwise (fun a b => a < b) (issuedOf k (runSession o' es).2) := by
  rw [hc]
  exact H

theorem runSession_counters (k : HwKind) :
    ∀ (evs : List SessionEvent) (o : Offsets),
      counterOf k o ≤ counterOf k (runSession o evs).1 ∧
      (∀ n ∈ issuedOf k (runSession o evs).2,
        counterOf k o ≤ n ∧ n < counterOf k (runSession o evs).1) ∧
      List.Pairwise (fun a b => a < b) (issuedOf k (runSession o evs).2) := by
  intro evs
  induction evs with
  | nil =>
    intro o
    refine ⟨Nat.le_refl _, ?_, ?_⟩ <;> simp [runSession, issuedOf]
  | cons e es ih =>
    intro o
    cases e <;> cases k <;>
      simp only [runSession, stepSession, Offsets.alloc_cqn,
        Offsets.alloc_eqn, Offsets.alloc_qpn, List.cons_append,
        List.nil_append, issuedOf_cons, reduceIte, reduceCtorEq] <;>
      first
      | exact session_skip_step _ es _ _ rfl (ih _)
      | exact session_cons_step _ es _ _ _ (Nat.le_refl _) rfl (ih _)

/-- C9: over any session (any interleaving of create and destroy calls,
with each create's firmware command succeeding or failing), the numbers
issued for one hardware-object kind are strictly increasing in issue
order — so no number is ever issued twice, and a number consumed by a
create whose firmware command fails (the allocation happens before the
command and is not rolled back) is never handed out again — every
issued number is at least the first post-reserved number the counter
was seeded with, and the per-kind counter never decreases. -/
theorem c9_object_number_monotonicity (caps : Capabilities)
    (evs : List SessionEvent) (k : HwKind) :
    List.Pairwise (fun a b => a < b)
      (issuedOf k (runSession (Offsets.init caps) evs).2) ∧
    (∀ n ∈ issuedOf k (runSession (Offsets.init caps) evs).2,
      counterOf k (Offsets.init caps) ≤ n) ∧
    counterOf k (Offsets.init caps) ≤
      counterOf k (runSession (Offsets.init caps) evs).1 := by
  obtain ⟨hc, hb, hp⟩ := runSession_counters k evs (Offsets.init caps)
  exact ⟨hp, fun n hn => (hb n hn).1, hc⟩

/-! ## Completion-queue destruction (lib.rs, `ConnectX3Nic::destroy_cq`) -/

/-- `ConnectX3Nic::destroy_cq` over the list of live completion-queue
numbers: find the first queue with the given number (else return the
not-found error with nothing touched), remove it from the vector, then
issue `Hw2SwCq` for it — whose own failure propagates after the removal.
Returns `(result, remaining numbers, numbers sent to Hw2SwCq)`. -/
def destroy_cq (cqs : List Nat) (number : Nat) (cmdOk : Bool) :
    Except String Unit × List Nat × List Nat :=
  if number ∈ cqs then
    ((if cmdOk then .ok () else .error "command failed"),
      cqs.erase number, [number])
  else (.error "completion queue not found", cqs, [])

/-- C10: destroying an unknown completion-queue number returns the
not-found error, issues no `Hw2SwCq` command and leaves the set of live
queues unchanged; destroying a live number removes exactly that queue
and issues the teardown command for it. -/
theorem c10_destroy_cq_atomicity (cqs : List Nat) (number : Nat)
    (cmdOk : Bool) :
    (number ∉ cqs →
      destroy_cq cqs number cmdOk =
        (.error "completion queue not found", cqs, [])) ∧
    (number ∈ cqs →
      (destroy_cq cqs number cmdOk).2.1 = cqs.erase number ∧
      (destroy_cq cqs number cmdOk).2.2 = [number] ∧
      (cqs.erase number).length + 1 = cqs.length) := by
  constructor
  · intro h
    unfold destroy_cq
    rw [if_neg h]
  · intro h
    refine ⟨?_, ?_, ?_⟩
    · simp [destroy_cq, h]
    · simp [destroy_cq, h]
    · have h1 := List.length_erase_of_mem h
      have h2 : 0 < cqs.length := List.length_pos_of_mem h
      omega

/-- Witness for C10: number 7 is not live in `[5, 9]` (error, no
command, unchanged); number 9 is live (removed, one `Hw2SwCq`). -/
theorem c10_destroy_cq_atomicity_witness :
    destroy_cq [5, 9] 7 true =
      (.error "completion queue not found", [5, 9], []) ∧
    (destroy_cq [5, 9] 9 true).2.1 = [5] ∧
    (destroy_cq [5, 9] 9 true).2.2 = [9] := by
  refine ⟨(c10_destroy_cq_atomicity [5, 9] 7 true).1 (by decide), ?_, ?_⟩
  · rw [((c10_destroy_cq_atomicity [5, 9] 9 true).2 (by decide)).1]
    decide
  · exact ((c10_destroy_cq_atomicity [5, 9] 9 true).2 (by decide)).2.1
